import Mathlib

/-!
# cutver: the tag-and-push form

A shallow embedding of `main.go`: the two-field form (`model`, `initialModel`,
`Update`, `updateInputs`, `command`), the branch reader (`getRepoInfo`) and the
top-level flow (`main`, `executeCommand`).

Conventions of the embedding.

* Go strings are Lean strings, taken to be well-formed text, so that turning a
  string into runes and back gives the string; a text input keeps its text as
  a list of characters, as the library keeps a slice of runes.
* Go `int` is `Int`.  No property below is stated at an index where machine
  arithmetic would wrap.
* A Go call that does not return normally is an `Except.error` carrying a
  `Fault`: an index-out-of-range panic, or a channel send that finds no room.
* The terminal libraries are collaborators.  The part of the text-input widget
  that the form calls (`NewModel`, `Focus`, `Blur`, `SetValue`, `Value`,
  `SetCursorMode`, and the focus guard of its `Update`) is embedded; the key
  handling of a focused widget is a parameter `keys`, so every theorem holds
  for whatever the widget does with a key once it has the focus.
* A `tea.Cmd` is the list of atomic requests it carries: `nil` is the empty
  list and `tea.Batch` is concatenation.
* A run of the form is the list of messages the terminal runtime hands to
  `Update`, in order.  A quit command is a request to the runtime; the form is
  "still running" as long as no `Update` call has made that request.
-/

namespace Cutver

/-! ## Runtime values -/

/-- Ways in which a Go call fails to return normally. -/
inductive Fault
  | panic
  | blocked
  deriving DecidableEq, Repr

/-- State of a buffered `chan string`: its capacity and the values sent and not
yet received.  While the form runs nobody receives (the only receive is in
`main`, after the program has returned), so a send succeeds exactly when the
buffer has room. -/
structure Chan where
  cap : Nat
  buf : List String
  deriving DecidableEq, Repr

/-- Go `make(chan string, n)`. -/
def Chan.make (n : Nat) : Chan := ⟨n, []⟩

/-- Go `c <- s` with no receiver waiting. -/
def Chan.send (c : Chan) (s : String) : Except Fault Chan :=
  if c.buf.length < c.cap then .ok { c with buf := c.buf ++ [s] } else .error .blocked

/-- Go `strings.Join`. -/
def strings.Join (elems : List String) (sep : String) : String :=
  sep.intercalate elems

/-- Atomic requests a command can make of the terminal runtime. -/
inductive Atom
  | quit
  | exitAltScreen
  | blink
  | paste
  deriving DecidableEq, Repr

/-- A `tea.Cmd`, as the list of requests it carries. -/
abbrev Cmd := List Atom

/-- The `tea.Quit` command. -/
def tea.Quit : Cmd := [Atom.quit]

/-- The `tea.ExitAltScreen` command. -/
def tea.ExitAltScreen : Cmd := [Atom.exitAltScreen]

/-- Go `tea.Batch(cmds...)`. -/
def tea.Batch (cmds : List Cmd) : Cmd := cmds.flatten

/-- A `tea.Msg`.  A key message is represented by the text that `msg.String()`
gives for it, which is all the form inspects; `other` stands for every message
that is not a key (blink ticks, pasted text, window sizes). -/
inductive Msg
  | key (s : String)
  | other (n : Nat)
  deriving DecidableEq, Repr

/-- A `lipgloss.Style`, by its foreground colour. -/
structure Style where
  foreground : Option String
  deriving DecidableEq, Repr

/-- Source: `lipgloss.NewStyle().Foreground(lipgloss.Color("205"))`. -/
def focusedStyle : Style := ⟨some "205"⟩

/-- Source: `focusedStyle.Copy()`. -/
def cursorStyle : Style := focusedStyle

/-- Source: `lipgloss.NewStyle()`. -/
def noStyle : Style := ⟨none⟩

/-! ## The text-input widget -/

namespace textinput

/-- Go `type CursorMode int`. -/
abbrev CursorMode := Int

/-- First cursor mode: the cursor blinks. -/
def CursorBlink : CursorMode := 0

/-- Second cursor mode: the cursor is shown and does not blink. -/
def CursorStatic : CursorMode := 1

/-- Third cursor mode: the cursor is hidden. -/
def CursorHide : CursorMode := 2

/-- The widget state. -/
structure Model where
  Placeholder : String
  CharLimit : Int
  PromptStyle : Style
  TextStyle : Style
  CursorStyle : Style
  value : List Char
  focus : Bool
  blink : Bool
  pos : Int
  cursorMode : CursorMode
  deriving DecidableEq, Repr

/-- Go `textinput.NewModel()`. -/
def NewModel : Model :=
  { Placeholder := "", CharLimit := 0, PromptStyle := noStyle, TextStyle := noStyle,
    CursorStyle := noStyle, value := [], focus := false, blink := true, pos := 0,
    cursorMode := CursorBlink }

/-- Go `Model.Value`. -/
def Model.Value (m : Model) : String := String.mk m.value

/-- The library's `setCursor`: clamps the position into the text and shows the
cursor unless it is hidden; the result tells whether blinking restarts. -/
def Model.setCursor (m : Model) (pos : Int) : Model × Bool :=
  ({ m with pos := max 0 (min pos m.value.length), blink := decide (m.cursorMode = CursorHide) },
   decide (m.cursorMode = CursorBlink))

/-- Go `Model.SetValue`: the text is cut to `CharLimit` runes when a positive
limit is set. -/
def Model.SetValue (m : Model) (s : String) : Model :=
  let runes := s.toList
  let m1 : Model :=
    if m.CharLimit > 0 ∧ (runes.length : Int) > m.CharLimit then
      { m with value := runes.take m.CharLimit.toNat }
    else
      { m with value := runes }
  if m1.pos = 0 ∨ m1.pos > m1.value.length then (m1.setCursor m1.value.length).1 else m1

/-- Go `Model.Focus`. -/
def Model.Focus (m : Model) : Model × Cmd :=
  ({ m with focus := true, blink := decide (m.cursorMode = CursorHide) },
   if m.cursorMode = CursorBlink then [Atom.blink] else [])

/-- Go `Model.Blur`. -/
def Model.Blur (m : Model) : Model :=
  { m with focus := false, blink := true }

/-- Go `Model.SetCursorMode`. -/
def Model.SetCursorMode (m : Model) (mode : CursorMode) : Model × Cmd :=
  ({ m with cursorMode := mode, blink := decide (mode = CursorHide) || !m.focus },
   if mode = CursorBlink then [Atom.blink] else [])

/-- What the key handling of a focused widget may write. -/
structure Edit where
  value : List Char
  pos : Int
  blink : Bool
  cmd : Cmd

/-- Key handling of a focused widget: a parameter of the embedding. -/
abbrev KeyHandler := Msg → Model → Edit

/-- Go `Model.Update`: a widget without the focus ignores the message. -/
def Model.Update (keys : KeyHandler) (m : Model) (msg : Msg) : Model × Cmd :=
  if !m.focus then
    ({ m with blink := true }, [])
  else
    let e := keys msg m
    ({ m with value := e.value, pos := e.pos, blink := e.blink }, e.cmd)

/-- One key handler, for running the definitions: a key is typed at the cursor
when the limit leaves room, and no other message edits the text. -/
def insertRunes : KeyHandler := fun msg m =>
  match msg with
  | Msg.key s =>
    if m.CharLimit ≤ 0 ∨ (m.value.length : Int) < m.CharLimit then
      { value := m.value.take m.pos.toNat ++ s.toList ++ m.value.drop m.pos.toNat,
        pos := m.pos + s.length, blink := decide (m.cursorMode = CursorHide),
        cmd := if m.cursorMode = CursorBlink then [Atom.blink] else [] }
    else
      { value := m.value, pos := m.pos, blink := m.blink, cmd := [] }
  | Msg.other _ => { value := m.value, pos := m.pos, blink := m.blink, cmd := [] }

end textinput

/-! ## The form -/

/-- Go `type model struct`. -/
structure model where
  focusIndex : Int
  inputs : List textinput.Model
  cursorMode : textinput.CursorMode
  tagCommandOutChan : Chan
  deriving DecidableEq, Repr

/-- Body of the loop of `initialModel` for index `i`. -/
def initialInput (branch : String) (i : Nat) : textinput.Model :=
  let t : textinput.Model := { textinput.NewModel with CursorStyle := cursorStyle }
  match i with
  | 0 =>
    let t := (t.Focus).1
    let t := { t with Placeholder := "tag" }
    let t := t.SetValue "v"
    let t := { t with CharLimit := 64 }
    { t with PromptStyle := focusedStyle, TextStyle := focusedStyle }
  | 1 =>
    let t := { t with Placeholder := "branch" }
    let t := { t with CharLimit := 200 }
    t.SetValue branch
  | _ => t

/-- Go `initialModel`. -/
def initialModel (branch : String) (tagCommand : Chan) : model :=
  { focusIndex := 0,
    inputs := (List.range 2).map (initialInput branch),
    cursorMode := 0,
    tagCommandOutChan := tagCommand }

/-- Go `model.command`; indexing a missing input panics. -/
def command (m : model) : Except Fault (List String) :=
  match m.inputs[0]?, m.inputs[1]? with
  | some t0, some t1 =>
    let tag := t0.Value
    let branch := t1.Value
    .ok ["git tag -a ", tag, " -m \"source=manual,branch=", branch, ",tag=", tag,
         "\" && git push origin ", tag]
  | _, _ => .error .panic

/-- Go `model.updateInputs`. -/
def updateInputs (keys : textinput.KeyHandler) (m : model) (msg : Msg) : model × Cmd :=
  let rs := m.inputs.map (fun t => t.Update keys msg)
  ({ m with inputs := rs.map Prod.fst }, tea.Batch (rs.map Prod.snd))

/-- The focus loop of `Update`, from index `i` on: the input at `focusIndex` is
focused and styled, every other input is blurred. -/
def focusLoop (focusIndex : Int) : Nat → List textinput.Model → List (textinput.Model × Cmd)
  | _, [] => []
  | i, t :: ts =>
    (if (i : Int) = focusIndex then
      let r := t.Focus
      ({ r.1 with PromptStyle := focusedStyle, TextStyle := focusedStyle }, r.2)
    else
      ({ t.Blur with PromptStyle := noStyle, TextStyle := noStyle }, [])) ::
    focusLoop focusIndex (i + 1) ts

/-- Go `model.Update`. -/
def Update (keys : textinput.KeyHandler) (m : model) (msg : Msg) : Except Fault (model × Cmd) :=
  match msg with
  | Msg.key s =>
    if s = "ctrl+c" ∨ s = "esc" then
      .ok (m, tea.Quit)
    else if s = "ctrl+r" then
      let mode := m.cursorMode + 1
      let mode := if mode > textinput.CursorHide then textinput.CursorBlink else mode
      let rs := m.inputs.map (fun t => t.SetCursorMode mode)
      .ok ({ m with cursorMode := mode, inputs := rs.map Prod.fst }, tea.Batch (rs.map Prod.snd))
    else if s = "tab" ∨ s = "shift+tab" ∨ s = "enter" ∨ s = "up" ∨ s = "down" then
      if s = "enter" ∧ m.focusIndex = m.inputs.length then
        match command m with
        | .error e => .error e
        | .ok parts =>
          match m.tagCommandOutChan.send (strings.Join parts "") with
          | .error e => .error e
          | .ok ch =>
            .ok ({ m with tagCommandOutChan := ch }, tea.Batch [tea.ExitAltScreen, tea.Quit])
      else
        let f := if s = "up" ∨ s = "shift+tab" then m.focusIndex - 1 else m.focusIndex + 1
        let f := if f > m.inputs.length then 0 else if f < 0 then (m.inputs.length : Int) else f
        let rs := focusLoop f 0 m.inputs
        .ok ({ m with focusIndex := f, inputs := rs.map Prod.fst }, tea.Batch (rs.map Prod.snd))
    else
      .ok (updateInputs keys m msg)
  | Msg.other _ => .ok (updateInputs keys m msg)

/-- The messages a program hands to `Update`, one after the other; the result
is the last model.  The terminal runtime, not the form, decides which message
is the last one. -/
def runProgram (keys : textinput.KeyHandler) (m : model) : List Msg → Except Fault model
  | [] => .ok m
  | msg :: rest =>
    match Update keys m msg with
    | .error e => .error e
    | .ok r => runProgram keys r.1 rest

/-! ## The branch reader -/

/-- A `plumbing.Reference`: its full name and the commit it points at. -/
structure Reference where
  name : String
  hash : String
  deriving DecidableEq, Repr

/-- The rest of `s` after the leading characters `p`, when `s` starts with them. -/
def trimLeading : List Char → List Char → Option (List Char)
  | [], s => some s
  | _ :: _, [] => none
  | p :: ps, c :: cs => if p = c then trimLeading ps cs else none

/-- Source: `Name().Short()`, for the name of a branch, `refs/heads/<short>`. -/
def Reference.Short (r : Reference) : String :=
  match trimLeading "refs/heads/".toList r.name.toList with
  | some rest => String.mk rest
  | none => r.name

/-- What the git library reports for an opened repository: the outcome of
`Branches()`, listing the local branches in iteration order, and of `Head()`,
the reference `HEAD` resolves to. -/
structure Repository where
  Branches : Except String (List Reference)
  Head : Except String Reference

/-- Go `type repoInfo struct`. -/
structure repoInfo where
  repo : Repository
  currentBranch : String

/-- Go `getRepoInfo`; `opened` is the outcome of `git.PlainOpen(".")`. -/
def getRepoInfo (opened : Except String Repository) : Except String repoInfo :=
  match opened with
  | .error e => .error e
  | .ok repo =>
    match repo.Branches with
    | .error e => .error e
    | .ok branchRefs =>
      match repo.Head with
      | .error e => .error e
      | .ok headRef =>
        let currentBranch := branchRefs.foldl
          (fun cur bf => if bf.hash = headRef.hash then bf.Short else cur) ""
        .ok ⟨repo, currentBranch⟩

/-! ## The top-level flow -/

/-- Outcomes of the collaborators of `main` in one run. -/
structure Env where
  opened : Except String Repository
  keys : textinput.KeyHandler
  msgs : List Msg
  startErr : Option String
  shell : String → Option String

/-- How the process ends: its exit code and the commands handed to the shell. -/
structure Exit where
  code : Nat
  executed : List String
  deriving DecidableEq, Repr

/-- Go `executeCommand`: the error of `bash -c cmdStr`, if any. -/
def executeCommand (env : Env) (cmdStr : String) : Option String :=
  env.shell cmdStr

/-- Source: `tea.NewProgram(m).Start()`: the form runs over the messages of the
run and the call returns the runtime's error, if any. -/
def Start (env : Env) (m : model) : Except Fault (Option String × model) :=
  match runProgram env.keys m env.msgs with
  | .error e => .error e
  | .ok m1 => .ok (env.startErr, m1)

/-- Go `main`. -/
def main (env : Env) : Except Fault Exit :=
  match getRepoInfo env.opened with
  | .error _ => .ok ⟨1, []⟩
  | .ok repo =>
    let resultCommandChan := Chan.make 1
    match Start env (initialModel repo.currentBranch resultCommandChan) with
    | .error e => .error e
    | .ok (some _, _) => .ok ⟨1, []⟩
    | .ok (none, m) =>
      match m.tagCommandOutChan.buf with
      | result :: _ =>
        match executeCommand env result with
        | some _ => .ok ⟨1, [result]⟩
        | none => .ok ⟨0, [result]⟩
      | [] => .ok ⟨0, []⟩

/-! ## Predicates used in the statements -/

/-- The focus index after a focus key, as `Update` computes it. -/
def nextFocus (m : model) (s : String) : Int :=
  let f := if s = "up" ∨ s = "shift+tab" then m.focusIndex - 1 else m.focusIndex + 1
  if f > m.inputs.length then 0 else if f < 0 then (m.inputs.length : Int) else f

/-- The messages for which `Update` has a case of its own: the eight key
bindings. -/
def handled : Msg → Bool
  | Msg.key s =>
    decide (s = "ctrl+c" ∨ s = "esc" ∨ s = "ctrl+r" ∨ s = "tab" ∨ s = "shift+tab" ∨
      s = "enter" ∨ s = "up" ∨ s = "down")
  | Msg.other _ => false

/-- The focus invariant: two inputs, the focus index on one of the three
positions, and an input focused exactly when the focus index is its index. -/
def FocusInv (m : model) : Prop :=
  m.inputs.length = 2 ∧ 0 ≤ m.focusIndex ∧ m.focusIndex ≤ (m.inputs.length : Int) ∧
    ∀ (i : Nat) (t : textinput.Model), m.inputs[i]? = some t →
      (t.focus = true ↔ (i : Int) = m.focusIndex)

/-! ## The command line -/

/-- C1: whatever tag and branch the two fields hold, `command` returns the
eight pieces literal, tag, literal, branch, literal, tag, literal, tag, and
joining them with the empty separator gives
`git tag -a <tag> -m "source=manual,branch=<branch>,tag=<tag>" && git push origin <tag>`,
with the tag verbatim three times and the branch once. -/
theorem command_join (tag branch : String) (m : model) (t0 t1 : textinput.Model)
    (h0 : m.inputs[0]? = some t0) (h1 : m.inputs[1]? = some t1)
    (htag : t0.Value = tag) (hbranch : t1.Value = branch) :
    command m = .ok ["git tag -a ", tag, " -m \"source=manual,branch=", branch, ",tag=", tag,
        "\" && git push origin ", tag] ∧
      (command m).map (fun parts => strings.Join parts "") =
        .ok ("git tag -a " ++ tag ++ " -m \"source=manual,branch=" ++ branch ++ ",tag=" ++ tag ++
          "\" && git push origin " ++ tag) := by
  subst htag hbranch
  have hc : command m = .ok ["git tag -a ", t0.Value, " -m \"source=manual,branch=", t1.Value,
      ",tag=", t0.Value, "\" && git push origin ", t0.Value] := by
    simp only [command, h0, h1]
  refine ⟨hc, ?_⟩
  rw [hc]
  simp [Except.map, strings.Join, String.intercalate, String.intercalate.go, String.append_assoc]

/-- C1 at a form whose tag holds a space, quotes and shell metacharacters and
whose branch is empty. -/
theorem command_join_witness :
    command ⟨2, [{ textinput.NewModel with value := "v1 \"; $(x) &".toList },
        textinput.NewModel], 0, Chan.make 1⟩ =
      .ok ["git tag -a ", "v1 \"; $(x) &", " -m \"source=manual,branch=", "", ",tag=",
        "v1 \"; $(x) &", "\" && git push origin ", "v1 \"; $(x) &"] ∧
    (command ⟨2, [{ textinput.NewModel with value := "v1 \"; $(x) &".toList },
        textinput.NewModel], 0, Chan.make 1⟩).map (fun parts => strings.Join parts "") =
      .ok ("git tag -a " ++ "v1 \"; $(x) &" ++ " -m \"source=manual,branch=" ++ "" ++ ",tag=" ++
        "v1 \"; $(x) &" ++ "\" && git push origin " ++ "v1 \"; $(x) &") :=
  command_join "v1 \"; $(x) &" ""
    ⟨2, [{ textinput.NewModel with value := "v1 \"; $(x) &".toList }, textinput.NewModel], 0,
      Chan.make 1⟩
    { textinput.NewModel with value := "v1 \"; $(x) &".toList } textinput.NewModel
    rfl rfl rfl rfl

/-! ## Enter -/

/-- A list with at least two elements has a first and a second element. -/
theorem two_inputs {α : Type} (l : List α) (h : 2 ≤ l.length) :
    ∃ a b rest, l = a :: b :: rest := by
  match l, h with
  | a :: b :: rest, _ => exact ⟨a, b, rest, rfl⟩

/-- The focus loop never asks to quit. -/
theorem focusLoop_no_quit (f : Int) (l : List textinput.Model) (i : Nat) :
    Atom.quit ∉ tea.Batch ((focusLoop f i l).map Prod.snd) := by
  induction l generalizing i with
  | nil => simp [focusLoop, tea.Batch]
  | cons t ts ih =>
    have h := ih (i + 1)
    simp only [tea.Batch] at h ⊢
    simp only [focusLoop, List.map_cons, List.flatten_cons, List.mem_append, not_or]
    refine ⟨?_, h⟩
    by_cases hi : (i : Int) = f
    · simp only [hi, if_true, textinput.Model.Focus]
      split <;> simp
    · simp [hi]

/-- The focus loop keeps the number of inputs. -/
theorem focusLoop_length (f : Int) (l : List textinput.Model) (i : Nat) :
    (focusLoop f i l).length = l.length := by
  induction l generalizing i with
  | nil => simp [focusLoop]
  | cons t ts ih => simp [focusLoop, ih]

/-- What `Update` returns on a focus key that is not Enter on the submit
button. -/
theorem Update_focus_key (keys : textinput.KeyHandler) (m : model) (s : String)
    (hs : s = "tab" ∨ s = "shift+tab" ∨ s = "enter" ∨ s = "up" ∨ s = "down")
    (hne : ¬ (s = "enter" ∧ m.focusIndex = m.inputs.length)) :
    Update keys m (Msg.key s) =
      .ok ({ m with focusIndex := nextFocus m s,
                    inputs := (focusLoop (nextFocus m s) 0 m.inputs).map Prod.fst },
           tea.Batch ((focusLoop (nextFocus m s) 0 m.inputs).map Prod.snd)) := by
  have h1 : ¬ (s = "ctrl+c" ∨ s = "esc") := by
    rcases hs with h | h | h | h | h <;> subst h <;> decide
  have h2 : ¬ (s = "ctrl+r") := by
    rcases hs with h | h | h | h | h <;> subst h <;> decide
  simp only [Update, h1, h2, hs, hne, if_true, if_false, nextFocus]

/-- C2 as stated fails: a model without inputs has `focusIndex = len(inputs)`
at 0, and there Enter panics in `command`; and the model reached from the form
as first shown by Tab, Tab, Enter has the focus on the submit button and a full
channel, and there a further Enter blocks in the send.  Neither sends a string
and returns. -/
theorem enter_on_submit_not_for_every_model :
    ((⟨0, [], 0, Chan.make 1⟩ : model).focusIndex =
        ((⟨0, [], 0, Chan.make 1⟩ : model).inputs.length : Int) ∧
      Update textinput.insertRunes ⟨0, [], 0, Chan.make 1⟩ (Msg.key "enter") =
        .error Fault.panic) ∧
    (∃ m, runProgram textinput.insertRunes (initialModel "main" (Chan.make 1))
        [Msg.key "tab", Msg.key "tab", Msg.key "enter"] = .ok m ∧
      m.focusIndex = (m.inputs.length : Int) ∧
      Update textinput.insertRunes m (Msg.key "enter") = .error Fault.blocked) :=
  ⟨⟨rfl, rfl⟩, ⟨_, rfl, rfl, rfl⟩⟩

/-- C2, amended: for every model with at least two inputs whose focus is on the
submit button and whose result channel has room, Enter returns, with the
concatenation of `command` appended to the channel as the only change to the
model, and asks to leave the alternate screen and quit; and for every model
whose focus is on a text field, Enter returns with the channel as it was and
does not ask to quit. -/
theorem enter_on_submit :
    (∀ (keys : textinput.KeyHandler) (m : model), 2 ≤ m.inputs.length →
        m.tagCommandOutChan.buf.length < m.tagCommandOutChan.cap →
        m.focusIndex = m.inputs.length →
        ∃ parts, command m = .ok parts ∧
          Update keys m (Msg.key "enter") =
            .ok ({ m with tagCommandOutChan :=
                    { m.tagCommandOutChan with
                      buf := m.tagCommandOutChan.buf ++ [strings.Join parts ""] } },
                 [Atom.exitAltScreen, Atom.quit])) ∧
    (∀ (keys : textinput.KeyHandler) (m : model), m.focusIndex < m.inputs.length →
        ∃ m1 c, Update keys m (Msg.key "enter") = .ok (m1, c) ∧
          m1.tagCommandOutChan = m.tagCommandOutChan ∧ Atom.quit ∉ c) := by
  constructor
  · intro keys m h2 hroom hf
    obtain ⟨a, b, rest, hl⟩ := two_inputs m.inputs h2
    have hc : command m = .ok ["git tag -a ", a.Value, " -m \"source=manual,branch=", b.Value,
        ",tag=", a.Value, "\" && git push origin ", a.Value] := by
      simp [command, hl]
    refine ⟨_, hc, ?_⟩
    simp [Update, hc, hf, Chan.send, hroom, tea.Batch, tea.ExitAltScreen, tea.Quit]
  · intro keys m hlt
    have hne : ¬ ("enter" = "enter" ∧ m.focusIndex = (m.inputs.length : Int)) := by
      intro h
      omega
    exact ⟨_, _, Update_focus_key keys m "enter" (by decide) hne, rfl,
      focusLoop_no_quit _ _ _⟩

/-- C2 at the form as first shown, moved to the submit button (Enter appends
the command line to the empty channel), and at the form as first shown (Enter
on the tag field sends nothing). -/
theorem enter_on_submit_witness :
    (∃ parts, command { initialModel "main" (Chan.make 1) with focusIndex := 2 } = .ok parts ∧
      Update textinput.insertRunes { initialModel "main" (Chan.make 1) with focusIndex := 2 }
          (Msg.key "enter") =
        .ok ({ initialModel "main" (Chan.make 1) with
                focusIndex := 2,
                tagCommandOutChan := ⟨1, [] ++ [strings.Join parts ""]⟩ },
             [Atom.exitAltScreen, Atom.quit])) ∧
    (∃ m1 c, Update textinput.insertRunes (initialModel "main" (Chan.make 1)) (Msg.key "enter") =
        .ok (m1, c) ∧
      m1.tagCommandOutChan = Chan.make 1 ∧ Atom.quit ∉ c) :=
  ⟨enter_on_submit.1 textinput.insertRunes
      { initialModel "main" (Chan.make 1) with focusIndex := 2 }
      (by decide) (by decide) (by decide),
   enter_on_submit.2 textinput.insertRunes (initialModel "main" (Chan.make 1)) (by decide)⟩

/-! ## Focus keys -/

/-- A focus key pressed on a form with two inputs and the focus on one of the
three positions: `Update` returns a form with two inputs and the focus moved by
one position, forward or backward, modulo three. -/
theorem Update_cycle (keys : textinput.KeyHandler) (m : model) (s : String)
    (hlen : m.inputs.length = 2) (h0 : 0 ≤ m.focusIndex) (h2 : m.focusIndex ≤ 2)
    (hs : s = "tab" ∨ s = "down" ∨ s = "shift+tab" ∨ s = "up") :
    ∃ m1 c, Update keys m (Msg.key s) = .ok (m1, c) ∧ m1.inputs.length = 2 ∧
      m1.focusIndex =
        (if s = "up" ∨ s = "shift+tab" then (m.focusIndex + 2) % 3 else (m.focusIndex + 1) % 3) := by
  have hkey : s = "tab" ∨ s = "shift+tab" ∨ s = "enter" ∨ s = "up" ∨ s = "down" := by tauto
  have hne : ¬ (s = "enter" ∧ m.focusIndex = m.inputs.length) := by
    rintro ⟨he, -⟩
    subst he
    revert hs
    decide
  refine ⟨_, _, Update_focus_key keys m s hkey hne, ?_, ?_⟩
  · simp [focusLoop_length, hlen]
  · simp only [nextFocus, hlen]
    split <;> push_cast <;> omega

/-- The focus index after a run of focus keys on a form with two inputs: each
key moves it as `Update_cycle` says. -/
theorem runProgram_cycle2 (keys : textinput.KeyHandler) (m : model) (s1 s2 : String)
    (hlen : m.inputs.length = 2) (h0 : 0 ≤ m.focusIndex) (h2 : m.focusIndex ≤ 2)
    (hs1 : s1 = "tab" ∨ s1 = "down" ∨ s1 = "shift+tab" ∨ s1 = "up")
    (hs2 : s2 = "tab" ∨ s2 = "down" ∨ s2 = "shift+tab" ∨ s2 = "up") :
    ∃ m2, runProgram keys m [Msg.key s1, Msg.key s2] = .ok m2 ∧ m2.inputs.length = 2 ∧
      ∃ f1 : Int, 0 ≤ f1 ∧ f1 ≤ 2 ∧
        f1 = (if s1 = "up" ∨ s1 = "shift+tab" then (m.focusIndex + 2) % 3
              else (m.focusIndex + 1) % 3) ∧
        m2.focusIndex = (if s2 = "up" ∨ s2 = "shift+tab" then (f1 + 2) % 3 else (f1 + 1) % 3) := by
  obtain ⟨m1, c1, e1, l1, f1⟩ := Update_cycle keys m s1 hlen h0 h2 hs1
  have b1 : 0 ≤ m1.focusIndex ∧ m1.focusIndex ≤ 2 := by
    rw [f1]; split <;> omega
  obtain ⟨m2, c2, e2, l2, f2⟩ := Update_cycle keys m1 s2 l1 b1.1 b1.2 hs2
  refine ⟨m2, ?_, l2, m1.focusIndex, b1.1, b1.2, f1, f2⟩
  simp [runProgram, e1, e2]

/-- C3: on a form with two inputs and the focus on one of the positions 0, 1, 2,
Tab and Down move the focus to `(f+1) mod 3` and Shift+Tab and Up move it to
`(f+2) mod 3`, the form keeping its two inputs; a backward key after a forward
key brings the focus back, and so do three presses of one key. -/
theorem focus_cycle (keys : textinput.KeyHandler) (m : model)
    (hlen : m.inputs.length = 2) (h0 : 0 ≤ m.focusIndex) (h2 : m.focusIndex ≤ 2) :
    (∀ s, s = "tab" ∨ s = "down" →
      ∃ m1 c, Update keys m (Msg.key s) = .ok (m1, c) ∧ m1.inputs.length = 2 ∧
        m1.focusIndex = (m.focusIndex + 1) % 3) ∧
    (∀ s, s = "shift+tab" ∨ s = "up" →
      ∃ m1 c, Update keys m (Msg.key s) = .ok (m1, c) ∧ m1.inputs.length = 2 ∧
        m1.focusIndex = (m.focusIndex + 2) % 3) ∧
    (∀ fwd bwd, fwd = "tab" ∨ fwd = "down" → bwd = "shift+tab" ∨ bwd = "up" →
      ∃ m2, runProgram keys m [Msg.key fwd, Msg.key bwd] = .ok m2 ∧
        m2.focusIndex = m.focusIndex) ∧
    (∀ s, s = "tab" ∨ s = "down" ∨ s = "shift+tab" ∨ s = "up" →
      ∃ m3, runProgram keys m [Msg.key s, Msg.key s, Msg.key s] = .ok m3 ∧
        m3.focusIndex = m.focusIndex) := by
  refine ⟨?_, ?_, ?_, ?_⟩
  · intro s hs
    obtain ⟨m1, c, e, l, f⟩ := Update_cycle keys m s hlen h0 h2 (by tauto)
    have hno : ¬ (s = "up" ∨ s = "shift+tab") := by
      rcases hs with h | h <;> subst h <;> decide
    exact ⟨m1, c, e, l, by simpa [hno] using f⟩
  · intro s hs
    obtain ⟨m1, c, e, l, f⟩ := Update_cycle keys m s hlen h0 h2 (by tauto)
    have hyes : s = "up" ∨ s = "shift+tab" := by tauto
    exact ⟨m1, c, e, l, by simpa [hyes] using f⟩
  · intro fwd bwd hf hb
    obtain ⟨m2, e, -, f1, -, -, e1, e2⟩ :=
      runProgram_cycle2 keys m fwd bwd hlen h0 h2 (by tauto) (by tauto)
    have hno : ¬ (fwd = "up" ∨ fwd = "shift+tab") := by
      rcases hf with h | h <;> subst h <;> decide
    have hyes : bwd = "up" ∨ bwd = "shift+tab" := by tauto
    refine ⟨m2, e, ?_⟩
    simp only [hno, hyes, if_true, if_false] at e1 e2
    omega
  · intro s hs
    obtain ⟨m1, c1, e1, l1, f1⟩ := Update_cycle keys m s hlen h0 h2 hs
    have b1 : 0 ≤ m1.focusIndex ∧ m1.focusIndex ≤ 2 := by
      rw [f1]; split <;> omega
    obtain ⟨m3, e, -, g, -, -, eg, e3⟩ :=
      runProgram_cycle2 keys m1 s s l1 b1.1 b1.2 hs hs
    refine ⟨m3, by simp [runProgram, e1] ; simpa [runProgram] using e, ?_⟩
    by_cases hb : s = "up" ∨ s = "shift+tab"
    · simp only [hb, if_true] at f1 eg e3
      omega
    · simp only [hb, if_false] at f1 eg e3
      omega

/-- C3 at the form as first shown, with the focus on the tag field: Tab moves
to position 1, Up to position 2, Tab then Shift+Tab and three presses of Down
come back to position 0. -/
theorem focus_cycle_witness :
    (∃ m1 c, Update textinput.insertRunes (initialModel "main" (Chan.make 1)) (Msg.key "tab") =
        .ok (m1, c) ∧ m1.inputs.length = 2 ∧
      m1.focusIndex = ((initialModel "main" (Chan.make 1)).focusIndex + 1) % 3) ∧
    (∃ m1 c, Update textinput.insertRunes (initialModel "main" (Chan.make 1)) (Msg.key "up") =
        .ok (m1, c) ∧ m1.inputs.length = 2 ∧
      m1.focusIndex = ((initialModel "main" (Chan.make 1)).focusIndex + 2) % 3) ∧
    (∃ m2, runProgram textinput.insertRunes (initialModel "main" (Chan.make 1))
        [Msg.key "tab", Msg.key "shift+tab"] = .ok m2 ∧
      m2.focusIndex = (initialModel "main" (Chan.make 1)).focusIndex) ∧
    (∃ m3, runProgram textinput.insertRunes (initialModel "main" (Chan.make 1))
        [Msg.key "down", Msg.key "down", Msg.key "down"] = .ok m3 ∧
      m3.focusIndex = (initialModel "main" (Chan.make 1)).focusIndex) :=
  have h := focus_cycle textinput.insertRunes (initialModel "main" (Chan.make 1))
    (by decide) (by decide) (by decide)
  ⟨h.1 "tab" (Or.inl rfl), h.2.1 "up" (Or.inr rfl),
    h.2.2.1 "tab" "shift+tab" (Or.inl rfl) (Or.inl rfl),
    h.2.2.2 "down" (Or.inr (Or.inl rfl))⟩

/-! ## The branch reader -/

/-- C5, at a repository whose branches `feature` and `main` point at the same
commit with `feature` checked out: `getRepoInfo` reports `main`, the last
branch at that commit, while the short name of the branch of `HEAD` is
`feature`. -/
theorem getRepoInfo_two_branches_one_commit :
    (getRepoInfo (.ok ⟨.ok [⟨"refs/heads/feature", "c0ffee"⟩, ⟨"refs/heads/main", "c0ffee"⟩],
        .ok ⟨"refs/heads/feature", "c0ffee"⟩⟩)).toOption.map (fun r => r.currentBranch) =
      some "main" ∧
    Reference.Short ⟨"refs/heads/feature", "c0ffee"⟩ = "feature" := by
  constructor <;> decide

/-! ## The form as first shown -/

/-- The text a widget holds after `SetValue`. -/
theorem SetValue_value (m : textinput.Model) (s : String) :
    (m.SetValue s).value =
      if m.CharLimit > 0 ∧ (s.toList.length : Int) > m.CharLimit then
        s.toList.take m.CharLimit.toNat
      else s.toList := by
  unfold textinput.Model.SetValue
  by_cases h : m.CharLimit > 0 ∧ (s.toList.length : Int) > m.CharLimit
  · simp only [h, and_self, if_true]
    split <;> rfl
  · simp only [h, if_false]
    split <;> rfl

/-- `SetValue` leaves the focus flag alone. -/
theorem SetValue_focus (m : textinput.Model) (s : String) :
    (m.SetValue s).focus = m.focus := by
  unfold textinput.Model.SetValue
  by_cases h : m.CharLimit > 0 ∧ (s.toList.length : Int) > m.CharLimit
  · simp only [h, and_self, if_true]
    split <;> rfl
  · simp only [h, if_false]
    split <;> rfl

/-- The branch field as first shown holds the first 200 characters of the
branch name. -/
theorem initialInput_branch_value (b : String) :
    (initialInput b 1).value = b.toList.take 200 := by
  have h : (initialInput b 1).value =
      if (200 : Int) > 0 ∧ (b.toList.length : Int) > 200 then b.toList.take 200
      else b.toList := SetValue_value _ b
  rw [h]
  by_cases hl : (b.toList.length : Int) > 200
  · simp [hl]
  · have hle : b.toList.length ≤ 200 := by omega
    simp [hl, List.take_of_length_le hle]

/-- A branch name longer than 200 characters is not what the branch field
holds as first shown. -/
theorem initialInput_long_branch (l : List Char) (h : 200 < l.length) (ch : Chan) :
    ∃ t1, (initialModel (String.mk l) ch).inputs[1]? = some t1 ∧
      t1.Value = String.mk (l.take 200) ∧ t1.Value ≠ String.mk l := by
  have hv : (initialInput (String.mk l) 1).Value = String.mk (l.take 200) := by
    simp only [textinput.Model.Value, initialInput_branch_value, String.toList]
  refine ⟨initialInput (String.mk l) 1, rfl, hv, ?_⟩
  rw [hv]
  intro e
  have hlen := congrArg String.length e
  simp only [String.length, List.length_take] at hlen
  omega

/-- C6 as stated fails for a branch name of 201 characters: the branch field
has its limit of 200 characters set before the name is put in, so it holds the
first 200 characters and not the name. -/
theorem initialModel_long_branch :
    ∃ t1, (initialModel (String.mk (List.replicate 201 'b')) (Chan.make 1)).inputs[1]? = some t1 ∧
      t1.Value = String.mk (List.take 200 (List.replicate 201 'b')) ∧
      t1.Value ≠ String.mk (List.replicate 201 'b') :=
  initialInput_long_branch (List.replicate 201 'b')
    (by rw [List.length_replicate]; omega) (Chan.make 1)

/-- C6, amended: for every branch string `b`, `initialModel b ch` has exactly
two inputs, the first holding `v` and focused, the second not focused and
holding the first 200 characters of `b`, which is `b` itself when `b` has at
most 200 characters; `focusIndex` is 0, the cursor mode is blink and the
channel is `ch`. -/
theorem initialModel_prefilled (b : String) (ch : Chan) :
    ∃ t0 t1, (initialModel b ch).inputs = [t0, t1] ∧
      t0.Value = "v" ∧ t0.focus = true ∧ t1.focus = false ∧
      t1.Value = String.mk (b.toList.take 200) ∧
      (b.length ≤ 200 → t1.Value = b) ∧
      (initialModel b ch).focusIndex = 0 ∧
      (initialModel b ch).cursorMode = textinput.CursorBlink ∧
      (initialModel b ch).tagCommandOutChan = ch := by
  have hf : (initialInput b 1).focus = false := SetValue_focus _ b
  refine ⟨initialInput b 0, initialInput b 1, rfl, rfl, rfl, hf, ?_, ?_, rfl, rfl, rfl⟩
  · simp [textinput.Model.Value, initialInput_branch_value]
  · intro hlen
    have hle : b.toList.length ≤ 200 := hlen
    simp only [textinput.Model.Value, initialInput_branch_value, List.take_of_length_le hle]
    rfl

/-- C6 at the branch `main`. -/
theorem initialModel_prefilled_witness :
    ∃ t0 t1, (initialModel "main" (Chan.make 1)).inputs = [t0, t1] ∧
      t0.Value = "v" ∧ t0.focus = true ∧ t1.focus = false ∧ t1.Value = "main" := by
  obtain ⟨t0, t1, h, hv, hf0, hf1, -, hb, -⟩ := initialModel_prefilled "main" (Chan.make 1)
  exact ⟨t0, t1, h, hv, hf0, hf1, hb (by decide)⟩

/-! ## Exit codes -/

/-- C7: `main` exits 1 when the repository cannot be read, exits 1 when the
form program reports an error, exits 1 when a command was submitted and the
shell reports an error, exits 0 when no command is on the channel, and exits 0
when a command was submitted and the shell succeeds; whenever `main` exits, the
shell was handed at most one command, and one only if the repository was read,
the program reported no error and that command was first on the channel. -/
theorem main_exit_codes (env : Env) :
    (∀ e, getRepoInfo env.opened = .error e → main env = .ok ⟨1, []⟩) ∧
    (∀ repo e m, getRepoInfo env.opened = .ok repo →
      Start env (initialModel repo.currentBranch (Chan.make 1)) = .ok (some e, m) →
      main env = .ok ⟨1, []⟩) ∧
    (∀ repo m result rest e, getRepoInfo env.opened = .ok repo →
      Start env (initialModel repo.currentBranch (Chan.make 1)) = .ok (none, m) →
      m.tagCommandOutChan.buf = result :: rest → executeCommand env result = some e →
      main env = .ok ⟨1, [result]⟩) ∧
    (∀ repo m, getRepoInfo env.opened = .ok repo →
      Start env (initialModel repo.currentBranch (Chan.make 1)) = .ok (none, m) →
      m.tagCommandOutChan.buf = [] →
      main env = .ok ⟨0, []⟩) ∧
    (∀ repo m result rest, getRepoInfo env.opened = .ok repo →
      Start env (initialModel repo.currentBranch (Chan.make 1)) = .ok (none, m) →
      m.tagCommandOutChan.buf = result :: rest → executeCommand env result = none →
      main env = .ok ⟨0, [result]⟩) ∧
    (∀ x, main env = .ok x →
      x.executed.length ≤ 1 ∧
      ∀ c, c ∈ x.executed →
        ∃ repo m rest, getRepoInfo env.opened = .ok repo ∧
          Start env (initialModel repo.currentBranch (Chan.make 1)) = .ok (none, m) ∧
          m.tagCommandOutChan.buf = c :: rest ∧ x.executed = [c]) := by
  refine ⟨?_, ?_, ?_, ?_, ?_, ?_⟩
  · intro e h
    simp [main, h]
  · intro repo e m h hs
    simp [main, h, hs]
  · intro repo m result rest e h hs hb he
    simp [main, h, hs, hb, he]
  · intro repo m h hs hb
    simp [main, h, hs, hb]
  · intro repo m result rest h hs hb he
    simp [main, h, hs, hb, he]
  · intro x hx
    unfold main at hx
    cases h : getRepoInfo env.opened with
    | error e =>
      simp only [h, Except.ok.injEq] at hx
      subst hx
      simp
    | ok repo =>
      simp only [h] at hx
      cases hs : Start env (initialModel repo.currentBranch (Chan.make 1)) with
      | error e => simp [hs] at hx
      | ok r =>
        obtain ⟨err, m⟩ := r
        cases err with
        | some e =>
          simp only [hs, Except.ok.injEq] at hx
          subst hx
          simp
        | none =>
          simp only [hs] at hx
          cases hb : m.tagCommandOutChan.buf with
          | nil =>
            simp only [hb, Except.ok.injEq] at hx
            subst hx
            simp
          | cons result rest =>
            simp only [hb] at hx
            cases he : executeCommand env result with
            | some e =>
              simp only [he, Except.ok.injEq] at hx
              subst hx
              refine ⟨by simp, ?_⟩
              intro c hc
              simp only [List.mem_singleton] at hc
              subst hc
              exact ⟨repo, m, rest, by simp [h], by simp [hs], hb, rfl⟩
            | none =>
              simp only [he, Except.ok.injEq] at hx
              subst hx
              refine ⟨by simp, ?_⟩
              intro c hc
              simp only [List.mem_singleton] at hc
              subst hc
              exact ⟨repo, m, rest, by simp [h], by simp [hs], hb, rfl⟩

/-- C7 at a run in which the user moves to the submit button and presses Enter
and the shell then reports an error: `main` exits 1 after handing the shell
that one command. -/
theorem main_exit_codes_witness :
    main { opened := .ok ⟨.ok [⟨"refs/heads/main", "c0ffee"⟩], .ok ⟨"refs/heads/main", "c0ffee"⟩⟩,
           keys := textinput.insertRunes,
           msgs := [Msg.key "tab", Msg.key "tab", Msg.key "enter"],
           startErr := none,
           shell := fun _ => some "exit status 1" } =
      .ok ⟨1, ["git tag -a v -m \"source=manual,branch=main,tag=v\" && git push origin v"]⟩ :=
  (main_exit_codes
      { opened := .ok ⟨.ok [⟨"refs/heads/main", "c0ffee"⟩], .ok ⟨"refs/heads/main", "c0ffee"⟩⟩,
        keys := textinput.insertRunes,
        msgs := [Msg.key "tab", Msg.key "tab", Msg.key "enter"],
        startErr := none,
        shell := fun _ => some "exit status 1" }).2.2.1
    ⟨⟨.ok [⟨"refs/heads/main", "c0ffee"⟩], .ok ⟨"refs/heads/main", "c0ffee"⟩⟩, "main"⟩
    _ _ [] "exit status 1" rfl rfl rfl rfl

/-! ## Cursor modes -/

/-- What `Update` returns on Ctrl+R. -/
theorem Update_ctrl_r (keys : textinput.KeyHandler) (m : model) :
    Update keys m (Msg.key "ctrl+r") =
      .ok ({ m with
              cursorMode := if m.cursorMode + 1 > textinput.CursorHide then textinput.CursorBlink
                            else m.cursorMode + 1,
              inputs := (m.inputs.map (fun t => t.SetCursorMode
                (if m.cursorMode + 1 > textinput.CursorHide then textinput.CursorBlink
                 else m.cursorMode + 1))).map Prod.fst },
           tea.Batch ((m.inputs.map (fun t => t.SetCursorMode
                (if m.cursorMode + 1 > textinput.CursorHide then textinput.CursorBlink
                 else m.cursorMode + 1))).map Prod.snd)) := by
  have h1 : ¬ ("ctrl+r" = "ctrl+c" ∨ "ctrl+r" = "esc") := by decide
  simp only [Update, h1, if_true, if_false]

/-- C8: on a form in one of the three cursor modes, Ctrl+R takes blink to
static, static to hidden and hidden to blink, gives every input the new mode,
and leaves the focus index, the number of inputs, their texts, their focus
flags and the channel as they were; three presses restore the cursor mode. -/
theorem cursor_mode_cycle (keys : textinput.KeyHandler) (m : model)
    (hmode : m.cursorMode = textinput.CursorBlink ∨ m.cursorMode = textinput.CursorStatic ∨
      m.cursorMode = textinput.CursorHide) :
    (∃ m1 c, Update keys m (Msg.key "ctrl+r") = .ok (m1, c) ∧
      (m.cursorMode = textinput.CursorBlink → m1.cursorMode = textinput.CursorStatic) ∧
      (m.cursorMode = textinput.CursorStatic → m1.cursorMode = textinput.CursorHide) ∧
      (m.cursorMode = textinput.CursorHide → m1.cursorMode = textinput.CursorBlink) ∧
      (∀ t ∈ m1.inputs, t.cursorMode = m1.cursorMode) ∧
      m1.focusIndex = m.focusIndex ∧
      m1.inputs.map (fun t => t.Value) = m.inputs.map (fun t => t.Value) ∧
      m1.inputs.map (fun t => t.focus) = m.inputs.map (fun t => t.focus) ∧
      m1.tagCommandOutChan = m.tagCommandOutChan) ∧
    (∃ m3, runProgram keys m [Msg.key "ctrl+r", Msg.key "ctrl+r", Msg.key "ctrl+r"] = .ok m3 ∧
      m3.cursorMode = m.cursorMode) := by
  constructor
  · refine ⟨_, _, Update_ctrl_r keys m, ?_, ?_, ?_, ?_, rfl, ?_, ?_, rfl⟩
    · intro h
      simp [h, textinput.CursorBlink, textinput.CursorStatic, textinput.CursorHide]
    · intro h
      simp [h, textinput.CursorBlink, textinput.CursorStatic, textinput.CursorHide]
    · intro h
      simp [h, textinput.CursorBlink, textinput.CursorStatic, textinput.CursorHide]
    · intro t ht
      simp only [List.map_map, List.mem_map, Function.comp] at ht
      obtain ⟨t0, -, rfl⟩ := ht
      rfl
    · simp only [List.map_map]
      apply List.map_congr_left
      intro t _
      rfl
    · simp only [List.map_map]
      apply List.map_congr_left
      intro t _
      rfl
  · simp only [runProgram, Update_ctrl_r]
    refine ⟨_, rfl, ?_⟩
    simp only [textinput.CursorBlink, textinput.CursorStatic, textinput.CursorHide] at hmode ⊢
    rcases hmode with h | h | h <;> simp [h]

/-- C8 at the form as first shown, whose cursor blinks: one Ctrl+R makes it
static and keeps the focus on the tag field, three bring it back to blink. -/
theorem cursor_mode_cycle_witness :
    (∃ m1 c, Update textinput.insertRunes (initialModel "main" (Chan.make 1)) (Msg.key "ctrl+r") =
        .ok (m1, c) ∧ m1.cursorMode = textinput.CursorStatic ∧
      m1.focusIndex = (initialModel "main" (Chan.make 1)).focusIndex) ∧
    (∃ m3, runProgram textinput.insertRunes (initialModel "main" (Chan.make 1))
        [Msg.key "ctrl+r", Msg.key "ctrl+r", Msg.key "ctrl+r"] = .ok m3 ∧
      m3.cursorMode = (initialModel "main" (Chan.make 1)).cursorMode) := by
  obtain ⟨⟨m1, c, e, hb, -, -, -, hfoc, -⟩, h3⟩ :=
    cursor_mode_cycle textinput.insertRunes (initialModel "main" (Chan.make 1)) (Or.inl rfl)
  exact ⟨⟨m1, c, e, hb rfl, hfoc⟩, h3⟩

/-! ## The focus invariant -/

/-- The focus invariant, spelt out for the two inputs. -/
theorem FocusInv_iff (m : model) :
    FocusInv m ↔ ∃ a b, m.inputs = [a, b] ∧ 0 ≤ m.focusIndex ∧ m.focusIndex ≤ 2 ∧
      (a.focus = true ↔ m.focusIndex = 0) ∧ (b.focus = true ↔ m.focusIndex = 1) := by
  constructor
  · rintro ⟨hlen, h0, h2, hall⟩
    match hm : m.inputs, hlen with
    | [a, b], _ =>
      refine ⟨a, b, rfl, h0, by simpa [hm] using h2, ?_, ?_⟩
      · have := hall 0 a (by simp [hm])
        rw [this]; constructor <;> intro h <;> simp_all
      · have := hall 1 b (by simp [hm])
        rw [this]; constructor <;> intro h <;> simp_all
  · rintro ⟨a, b, hl, h0, h2, ha, hb⟩
    refine ⟨by simp [hl], h0, by simpa [hl] using h2, ?_⟩
    intro i t hi
    rw [hl] at hi
    match i, hi with
    | 0, hi =>
      simp only [List.getElem?_cons_zero, Option.some.injEq] at hi
      subst hi
      rw [ha]; constructor <;> intro h <;> simp_all
    | 1, hi =>
      simp only [List.getElem?_cons_succ, List.getElem?_cons_zero, Option.some.injEq] at hi
      subst hi
      rw [hb]; constructor <;> intro h <;> simp_all
    | (n + 2), hi => simp at hi

/-- The form as first shown satisfies the focus invariant. -/
theorem FocusInv_initialModel (b : String) (ch : Chan) : FocusInv (initialModel b ch) := by
  rw [FocusInv_iff]
  have hz : (initialModel b ch).focusIndex = 0 := rfl
  refine ⟨initialInput b 0, initialInput b 1, rfl, by rw [hz], by rw [hz]; decide, ?_, ?_⟩
  · exact ⟨fun _ => rfl, fun _ => rfl⟩
  · have hf : (initialInput b 1).focus = false := SetValue_focus _ b
    rw [hf, hz]
    constructor <;> intro h <;> cases h

/-- The widget's `Update` leaves the focus flag alone. -/
theorem textinput_Update_focus (keys : textinput.KeyHandler) (t : textinput.Model) (msg : Msg) :
    (t.Update keys msg).1.focus = t.focus := by
  unfold textinput.Model.Update
  split <;> rfl

/-- A widget without the focus keeps its text. -/
theorem textinput_Update_unfocused (keys : textinput.KeyHandler) (t : textinput.Model)
    (msg : Msg) (h : t.focus = false) :
    (t.Update keys msg).1.Value = t.Value := by
  unfold textinput.Model.Update
  simp [h, textinput.Model.Value]

/-- A message that is not one of the key bindings goes to the inputs. -/
theorem Update_unhandled (keys : textinput.KeyHandler) (m : model) (msg : Msg)
    (h : handled msg = false) :
    Update keys m msg = .ok (updateInputs keys m msg) := by
  cases msg with
  | other n => rfl
  | key s =>
    simp only [handled, decide_eq_false_iff_not, not_or] at h
    obtain ⟨h1, h2, h3, h4, h5, h6, h7, h8⟩ := h
    simp [Update, h1, h2, h3, h4, h5, h6, h7, h8]

/-- A form with two inputs has a command line. -/
theorem command_ok (m : model) (a b : textinput.Model) (hl : m.inputs = [a, b]) :
    command m = .ok ["git tag -a ", a.Value, " -m \"source=manual,branch=", b.Value,
      ",tag=", a.Value, "\" && git push origin ", a.Value] := by
  simp [command, hl]

/-- What `Update` returns on Enter with the focus on the submit button, once
`command` has returned. -/
theorem Update_enter_submit (keys : textinput.KeyHandler) (m : model) (parts : List String)
    (hf : m.focusIndex = m.inputs.length) (hc : command m = .ok parts) :
    Update keys m (Msg.key "enter") =
      if m.tagCommandOutChan.buf.length < m.tagCommandOutChan.cap then
        .ok ({ m with tagCommandOutChan :=
                { m.tagCommandOutChan with
                  buf := m.tagCommandOutChan.buf ++ [strings.Join parts ""] } },
             [Atom.exitAltScreen, Atom.quit])
      else .error Fault.blocked := by
  by_cases hroom : m.tagCommandOutChan.buf.length < m.tagCommandOutChan.cap
  · simp [Update, hc, hf, Chan.send, hroom, tea.Batch, tea.ExitAltScreen, tea.Quit]
  · simp [Update, hc, hf, Chan.send, hroom]

/-- The focus index after a focus key stays on one of the three positions. -/
theorem nextFocus_bounds (m : model) (s : String) (hlen : m.inputs.length = 2)
    (h0 : 0 ≤ m.focusIndex) (h2 : m.focusIndex ≤ 2) :
    0 ≤ nextFocus m s ∧ nextFocus m s ≤ 2 := by
  simp only [nextFocus, hlen]
  split_ifs <;> constructor <;> omega

/-- `Update` panics only where `command` does. -/
theorem Update_no_panic (keys : textinput.KeyHandler) (m : model) (msg : Msg)
    (parts : List String) (hc : command m = .ok parts) :
    Update keys m msg ≠ .error Fault.panic := by
  cases msg with
  | other n => simp [Update]
  | key s =>
    by_cases hh : handled (Msg.key s) = false
    · rw [Update_unhandled keys m _ hh]
      simp
    · by_cases hq : s = "ctrl+c" ∨ s = "esc"
      · simp [Update, hq]
      · by_cases hr : s = "ctrl+r"
        · subst hr
          rw [Update_ctrl_r]
          simp
        · have hk : s = "tab" ∨ s = "shift+tab" ∨ s = "enter" ∨ s = "up" ∨ s = "down" := by
            simp only [handled, decide_eq_false_iff_not, not_not] at hh
            tauto
          by_cases he : s = "enter" ∧ m.focusIndex = m.inputs.length
          · obtain ⟨rfl, hf⟩ := he
            rw [Update_enter_submit keys m parts hf hc]
            split <;> simp
          · rw [Update_focus_key keys m s hk he]
            simp

/-- Every step of `Update` that returns keeps the focus invariant. -/
theorem FocusInv_Update (keys : textinput.KeyHandler) (m m1 : model) (msg : Msg) (c : Cmd)
    (hinv : FocusInv m) (hu : Update keys m msg = .ok (m1, c)) : FocusInv m1 := by
  rw [FocusInv_iff] at hinv ⊢
  obtain ⟨a, b, hl, h0, h2, ha, hb⟩ := hinv
  by_cases hh : handled msg = false
  · rw [Update_unhandled keys m _ hh] at hu
    simp only [updateInputs, hl, List.map_cons, List.map_nil, Except.ok.injEq,
      Prod.mk.injEq] at hu
    obtain ⟨rfl, -⟩ := hu
    exact ⟨_, _, rfl, h0, h2, by simpa [textinput_Update_focus] using ha,
      by simpa [textinput_Update_focus] using hb⟩
  · cases msg with
    | other n => simp [handled] at hh
    | key s =>
      by_cases hq : s = "ctrl+c" ∨ s = "esc"
      · simp only [Update, hq, if_true, Except.ok.injEq, Prod.mk.injEq] at hu
        obtain ⟨rfl, -⟩ := hu
        exact ⟨a, b, hl, h0, h2, ha, hb⟩
      · by_cases hr : s = "ctrl+r"
        · subst hr
          rw [Update_ctrl_r] at hu
          simp only [hl, List.map_cons, List.map_nil, Except.ok.injEq, Prod.mk.injEq] at hu
          obtain ⟨rfl, -⟩ := hu
          exact ⟨_, _, rfl, h0, h2, ha, hb⟩
        · have hk : s = "tab" ∨ s = "shift+tab" ∨ s = "enter" ∨ s = "up" ∨ s = "down" := by
            simp only [handled, decide_eq_false_iff_not, not_not] at hh
            tauto
          by_cases he : s = "enter" ∧ m.focusIndex = m.inputs.length
          · obtain ⟨rfl, hf⟩ := he
            rw [Update_enter_submit keys m _ hf (command_ok m a b hl)] at hu
            split at hu
            · simp only [Except.ok.injEq, Prod.mk.injEq] at hu
              obtain ⟨rfl, -⟩ := hu
              exact ⟨a, b, hl, h0, h2, ha, hb⟩
            · simp at hu
          · rw [Update_focus_key keys m s hk he] at hu
            simp only [Except.ok.injEq, Prod.mk.injEq] at hu
            obtain ⟨rfl, -⟩ := hu
            obtain ⟨hn0, hn2⟩ := nextFocus_bounds m s (by simp [hl]) h0 h2
            refine ⟨_, _, by simp only [hl, focusLoop, List.map_cons, List.map_nil]; rfl,
              hn0, hn2, ?_, ?_⟩
            · by_cases hz : nextFocus m s = 0
              · simp [hz, textinput.Model.Focus]
              · have hz2 : ¬ (0 : Int) = nextFocus m s := fun e => hz e.symm
                simp [hz, hz2, textinput.Model.Blur]
            · by_cases hz : nextFocus m s = 1
              · simp [hz, textinput.Model.Focus]
              · have hz2 : ¬ (1 : Int) = nextFocus m s := fun e => hz e.symm
                simp [hz, hz2, textinput.Model.Blur]

/-- Every model the form reaches satisfies the focus invariant. -/
theorem FocusInv_runProgram (keys : textinput.KeyHandler) (msgs : List Msg) (m m1 : model)
    (hinv : FocusInv m) (hrun : runProgram keys m msgs = .ok m1) : FocusInv m1 := by
  induction msgs generalizing m with
  | nil =>
    simp only [runProgram, Except.ok.injEq] at hrun
    exact hrun ▸ hinv
  | cons x xs ih =>
    simp only [runProgram] at hrun
    cases hu : Update keys m x with
    | error e => simp [hu] at hrun
    | ok r =>
      simp only [hu] at hrun
      exact ih r.1 (FocusInv_Update keys m r.1 x r.2 hinv hu) hrun

/-- C10: every model reached from `initialModel` by `Update` calls has two
inputs and a focus index between 0 and the number of inputs, and an input is
focused exactly when the focus index is its index; on such a model `command`
returns, and no `Update` panics on an index. -/
theorem focus_invariant (keys : textinput.KeyHandler) (b : String) (ch : Chan)
    (msgs : List Msg) (m : model)
    (hreach : runProgram keys (initialModel b ch) msgs = .ok m) :
    m.inputs.length = 2 ∧ 0 ≤ m.focusIndex ∧ m.focusIndex ≤ (m.inputs.length : Int) ∧
      (∀ (i : Nat) (t : textinput.Model), m.inputs[i]? = some t →
        (t.focus = true ↔ (i : Int) = m.focusIndex)) ∧
      (∃ parts, command m = .ok parts) ∧
      (∀ msg, Update keys m msg ≠ .error Fault.panic) := by
  have hinv : FocusInv m :=
    FocusInv_runProgram keys msgs _ m (FocusInv_initialModel b ch) hreach
  obtain ⟨a, c, hl, -⟩ := (FocusInv_iff m).1 hinv
  obtain ⟨h1, h2, h3, h4⟩ := hinv
  exact ⟨h1, h2, h3, h4, ⟨_, command_ok m a c hl⟩,
    fun msg => Update_no_panic keys m msg _ (command_ok m a c hl)⟩

/-- C10 at the model reached by typing a character, moving to the submit
button and pressing Enter: two inputs, the focus index at 2, a command line,
and no panic on a further Enter. -/
theorem focus_invariant_witness :
    ∃ m, runProgram textinput.insertRunes (initialModel "main" (Chan.make 1))
        [Msg.key "1", Msg.key "tab", Msg.key "tab", Msg.key "enter"] = .ok m ∧
      m.inputs.length = 2 ∧ m.focusIndex = 2 ∧
      (∃ parts, command m = .ok parts) ∧
      Update textinput.insertRunes m (Msg.key "enter") ≠ .error Fault.panic :=
  have h := focus_invariant textinput.insertRunes "main" (Chan.make 1)
    [Msg.key "1", Msg.key "tab", Msg.key "tab", Msg.key "enter"] _ rfl
  ⟨_, rfl, h.1, rfl, h.2.2.2.2.1, h.2.2.2.2.2 (Msg.key "enter")⟩

/-! ## Typing -/

/-- C9: on every model reached from `initialModel`, a message that is not one
of the key bindings, a typed character among them, makes `Update` return with
the focus index, the number of inputs, the cursor mode and the channel as they
were and with the text of every input other than the one at the focus index
unchanged; with the focus on the submit button no text changes and `command`
builds the same pieces. -/
theorem typing_frame (keys : textinput.KeyHandler) (b : String) (ch : Chan)
    (msgs : List Msg) (m : model)
    (hreach : runProgram keys (initialModel b ch) msgs = .ok m)
    (msg : Msg) (hmsg : handled msg = false) :
    ∃ m1 c, Update keys m msg = .ok (m1, c) ∧
      m1.focusIndex = m.focusIndex ∧ m1.inputs.length = m.inputs.length ∧
      m1.cursorMode = m.cursorMode ∧ m1.tagCommandOutChan = m.tagCommandOutChan ∧
      (∀ i : Nat, (i : Int) ≠ m.focusIndex →
        (m1.inputs[i]?).map (fun t => t.Value) = (m.inputs[i]?).map (fun t => t.Value)) ∧
      (m.focusIndex = m.inputs.length →
        m1.inputs.map (fun t => t.Value) = m.inputs.map (fun t => t.Value) ∧
        command m1 = command m) := by
  have hinv : FocusInv m :=
    FocusInv_runProgram keys msgs _ m (FocusInv_initialModel b ch) hreach
  obtain ⟨a, d, hl, -, -, ha, hd⟩ := (FocusInv_iff m).1 hinv
  obtain ⟨-, -, -, hall⟩ := hinv
  refine ⟨_, _, Update_unhandled keys m msg hmsg, rfl, by simp [updateInputs], rfl, rfl, ?_, ?_⟩
  · intro i hi
    simp only [updateInputs, List.map_map, List.getElem?_map, Option.map_map]
    cases ht : m.inputs[i]? with
    | none => rfl
    | some t =>
      have hf : t.focus = false := by
        have h := hall i t ht
        cases hfo : t.focus
        · rfl
        · exact absurd (h.1 hfo) hi
      simp [textinput_Update_unfocused keys t msg hf]
  · intro hsub
    have hf2 : m.focusIndex = 2 := by simpa [hl] using hsub
    have haf : a.focus = false := by
      cases hfo : a.focus
      · rfl
      · have := ha.1 hfo
        omega
    have hdf : d.focus = false := by
      cases hfo : d.focus
      · rfl
      · have := hd.1 hfo
        omega
    have hva := textinput_Update_unfocused keys a msg haf
    have hvd := textinput_Update_unfocused keys d msg hdf
    constructor
    · simp [updateInputs, hl, hva, hvd]
    · simp [command, updateInputs, hl, hva, hvd]

/-- C9 at the form moved to the branch field, where the character `x` is
typed. -/
theorem typing_frame_witness :
    ∃ m1 c, Update textinput.insertRunes
        { initialModel "main" (Chan.make 1) with
          focusIndex := 1,
          inputs := (focusLoop 1 0 (initialModel "main" (Chan.make 1)).inputs).map Prod.fst }
        (Msg.key "x") = .ok (m1, c) ∧
      m1.focusIndex = 1 ∧
      (m1.inputs[0]?).map (fun t => t.Value) = some "v" ∧
      (m1.inputs[1]?).map (fun t => t.Value) = some "mainx" := by
  obtain ⟨m1, c, e, hf, -, -, -, hother, -⟩ :=
    typing_frame textinput.insertRunes "main" (Chan.make 1) [Msg.key "tab"] _ rfl
      (Msg.key "x") rfl
  refine ⟨m1, c, e, hf, ?_, ?_⟩
  · rw [hother 0 (by decide)]
    rfl
  · have e2 : Update textinput.insertRunes
        { initialModel "main" (Chan.make 1) with
          focusIndex := 1,
          inputs := (focusLoop 1 0 (initialModel "main" (Chan.make 1)).inputs).map Prod.fst }
        (Msg.key "x") = .ok (m1, c) := e
    have e3 : Update textinput.insertRunes
        { initialModel "main" (Chan.make 1) with
          focusIndex := 1,
          inputs := (focusLoop 1 0 (initialModel "main" (Chan.make 1)).inputs).map Prod.fst }
        (Msg.key "x") = .ok (_, _) := rfl
    rw [e3] at e2
    simp only [Except.ok.injEq, Prod.mk.injEq] at e2
    rw [← e2.1]
    rfl

/-! ## Leaving the form -/

end Cutver
